import Mathlib

/-!  Shallow embedding of the weighted K-means implementation in
kmeans.py: the distance engine, the weighted K-means++ seeding with
multi-candidate local trials, the Lloyd iteration with empty-cluster
reseeding, and the explicit cumulative-sum categorical sampler.
Exact real arithmetic stands in for IEEE floating point.  The
library pseudo-random generator used by the source is an external
dependency with one process-wide mutable state; it is modelled here
by an explicit deterministic state machine with the same interface
(seeding, uniform integer draw, uniform draws in the half-open unit
interval).  The verified properties depend on the threading of that
global state, on determinism under seeding, and on the ranges of the
draws, not on the particular pseudo-random sequence. -/

/-- Process-wide state of the pseudo-random generator. -/
structure RngState where
  val : ℕ
deriving DecidableEq

/-- One step of the generator: produce a number below 2^31 and the
advanced state (a linear congruential step models the library
generator). -/
def rngNext (s : RngState) : ℕ × RngState :=
  let v := (s.val * 1103515245 + 12345) % 2147483648
  (v, ⟨v⟩)

/-- Seeding the global generator: the state becomes a function of the
seed alone. -/
def npRandomSeed (n : ℕ) : RngState := ⟨n % 2147483648⟩

/-- Uniform integer draw in the range below n, advancing the global
state. -/
def npRandomRandint (n : ℕ) (s : RngState) : ℕ × RngState :=
  ((rngNext s).1 % n, (rngNext s).2)

/-- Uniform draw in the half-open unit interval, advancing the global
state. -/
noncomputable def npRandomRand (s : RngState) : ℝ × RngState :=
  (((rngNext s).1 : ℝ) / 2147483648, (rngNext s).2)

/-- A list of uniform draws in the half-open unit interval, as
np.random.rand(size). -/
noncomputable def npRandomRandList : ℕ → RngState → List ℝ × RngState
  | 0, s => ([], s)
  | n + 1, s =>
      let r := npRandomRand s
      let rest := npRandomRandList n r.2
      (r.1 :: rest.1, rest.2)

/-- Sum of squared per-dimension differences of two feature vectors. -/
noncomputable def sqDiffSum (x p : List ℝ) : ℝ :=
  (List.zipWith (fun a b => (a - b) ^ 2) x p).sum

/-- The single-reference variant of the distance engine: Euclidean
distance from every row of X to one point. -/
noncomputable def distance_from_point (X : List (List ℝ)) (point : List ℝ) : List ℝ :=
  X.map fun x => Real.sqrt (sqDiffSum x point)

/-- The distance engine: the N-by-M matrix of Euclidean distances
between the rows of X and each of the reference points. -/
noncomputable def distance_from_points (X : List (List ℝ)) (points : List (List ℝ)) :
    List (List ℝ) :=
  X.map fun x => points.map fun p => Real.sqrt (sqDiffSum x p)

/-- Running partial sums, as np.cumsum. -/
noncomputable def cumsum : List ℝ → List ℝ
  | [] => []
  | x :: xs => x :: (cumsum xs).map (fun y => x + y)

/-- Left insertion search: the first index whose element is at least
v, or the length when no element is (np.searchsorted with its default
side on a sorted array). -/
noncomputable def searchsorted (a : List ℝ) (v : ℝ) : ℕ :=
  match a with
  | [] => 0
  | x :: xs => if v ≤ x then 0 else searchsorted xs v + 1

/-- Index scan for np.argmin: carries the best index, the best value
and the index of the next element; a strictly smaller value replaces
the best, so ties keep the lowest index. -/
noncomputable def argminAux : List ℝ → ℕ → ℝ → ℕ → ℕ
  | [], bi, _, _ => bi
  | x :: xs, bi, bv, i =>
      if x < bv then argminAux xs i x (i + 1) else argminAux xs bi bv (i + 1)

/-- Position of the first minimal element of a list, as np.argmin on
a one-dimensional array. -/
noncomputable def argmin : List ℝ → ℕ
  | [] => 0
  | x :: xs => argminAux xs 0 x 1

/-- The cumulative-sum categorical sampler of the source: draw the
requested number of uniform values and locate each in the running
sums of the probability vector. -/
noncomputable def numba_rand_choice (size : ℕ) (probabilities : List ℝ) (s : RngState) :
    List ℕ × RngState :=
  let p_cumsum := cumsum probabilities
  let rands := npRandomRandList size s
  (rands.1.map fun r => searchsorted p_cumsum r, rands.2)

/-- Selection scores turned into a probability vector, as in the body
of the seeding loop: sum the scores, fall back to a uniform score
when the sum is exactly zero, clip the ratios into the unit interval
and normalize them to sum to one. -/
noncomputable def seederScoresNormalized (distances_alpha : List ℝ) : List ℝ :=
  let sda0 := distances_alpha.sum
  let da := if sda0 = 0 then List.replicate distances_alpha.length (1 : ℝ)
            else distances_alpha
  let sda := if sda0 = 0 then (List.replicate distances_alpha.length (1 : ℝ)).sum
             else sda0
  let probabilities0 := da.map fun x => min (max (x / sda) 0) 1
  probabilities0.map fun x => x / probabilities0.sum

/-- The acceptance score of a candidate point: the total over all
points of the smaller of the running distance and the distance to the
candidate. -/
noncomputable def candidateObjective (X : List (List ℝ)) (distances : List ℝ)
    (c : List ℝ) : ℝ :=
  (List.zipWith min distances (distance_from_point X c)).sum

/-- The candidate points of one seeding step: the rows of X at the
indices drawn by the categorical sampler from the normalized scores. -/
noncomputable def seederCandidates (X : List (List ℝ)) (n_local_trials : ℕ)
    (distances_alpha : List ℝ) (g : RngState) : List (List ℝ) :=
  (numba_rand_choice n_local_trials (seederScoresNormalized distances_alpha) g).1.map
    fun i => X.getD i []

/-- The candidate adopted by one seeding step: the drawn candidate at
the arg-min of the acceptance scores. -/
noncomputable def seederBest (X : List (List ℝ)) (n_local_trials : ℕ)
    (distances : List ℝ) (distances_alpha : List ℝ) (g : RngState) : List ℝ :=
  (seederCandidates X n_local_trials distances_alpha g).getD
    (argmin ((seederCandidates X n_local_trials distances_alpha g).map
      (candidateObjective X distances))) []

/-- One pass of the seeding loop over the centroid indices from 1 to
K-1: normalize the selection scores (with the uniform fallback when
they sum to zero), draw the local-trial candidates, adopt the
candidate minimizing the total running minimum distance, and update
the running distances and scores. -/
noncomputable def seederLoop (X : List (List ℝ)) (weights : List ℝ) (alpha : ℝ)
    (n_local_trials : ℕ) :
    ℕ → ℕ → List (List ℝ) → List ℝ → List ℝ → RngState → List (List ℝ) × RngState
  | 0, _, centroids, _, _, g => (centroids, g)
  | m + 1, k, centroids, distances, distances_alpha, g =>
      let probabilities := seederScoresNormalized distances_alpha
      let choice := numba_rand_choice n_local_trials probabilities g
      let candidates := choice.1.map fun i => X.getD i []
      let best := candidates.getD
        (argmin (candidates.map (candidateObjective X distances))) []
      let centroids' := centroids.set k best
      let new_distances := distance_from_point X (centroids'.getD k [])
      let distances' := List.zipWith min distances new_distances
      let distances_alpha' := List.zipWith (fun d w => d ^ alpha * w) distances' weights
      seederLoop X weights alpha n_local_trials m (k + 1) centroids' distances' distances_alpha'
        choice.2

/-- The seeder: weighted K-means++ with the zero-weight fallback, a
uniformly drawn first centroid, and 2 + the floor of the natural
logarithm of K local trials per subsequent centroid. -/
noncomputable def kmeans_plusplus (X : List (List ℝ)) (weights : List ℝ)
    (n_clusters : ℕ) (alpha : ℝ) (g : RngState) : List (List ℝ) × RngState :=
  let n_samples := X.length
  let n_features := (X.headD []).length
  let n_local_trials := 2 + ⌊Real.log (n_clusters : ℝ)⌋₊
  let weights' := if ∀ w ∈ weights, w = 0 then List.replicate weights.length (1 : ℝ)
                  else weights
  let centroids0 := List.replicate n_clusters (List.replicate n_features (0 : ℝ))
  let first := npRandomRandint n_samples g
  let centroids := centroids0.set 0 (X.getD first.1 [])
  let distances := distance_from_point X (centroids.getD 0 [])
  let distances_alpha := List.zipWith (fun d w => d ^ alpha * w) distances weights'
  seederLoop X weights' alpha n_local_trials (n_clusters - 1) 1 centroids distances
    distances_alpha first.2

/-- Weighted mean of the members of cluster k: the rows and weights
selected by the label mask, combined as the weight-scaled row sum
divided by the total member weight. -/
noncomputable def updateCluster (X : List (List ℝ)) (weights : List ℝ)
    (labels : List ℕ) (k : ℕ) (n_features : ℕ) : List ℝ :=
  let cluster_points := ((X.zip labels).filter fun q => q.2 == k).map Prod.fst
  let cluster_weights := ((weights.zip labels).filter fun q => q.2 == k).map Prod.fst
  let wsum := ((cluster_points.zip cluster_weights).map fun q => q.1.map fun a => q.2 * a).foldr
      (fun v acc => List.zipWith (fun a b => a + b) v acc)
      (List.replicate n_features (0 : ℝ))
  wsum.map fun a => a / cluster_weights.sum

/-- The update phase over clusters k, k+1, ... : a cluster with at
least one member gets its weighted mean, a cluster with no member is
reseeded from a uniform draw over the full point set; the draws
advance the global generator state in cluster order. -/
noncomputable def updateCentroids (X : List (List ℝ)) (weights : List ℝ) (labels : List ℕ)
    (n_samples n_features : ℕ) : ℕ → ℕ → RngState → List (List ℝ) × RngState
  | 0, _, g => ([], g)
  | m + 1, k, g =>
      if k ∈ labels then
        let rest := updateCentroids X weights labels n_samples n_features m (k + 1) g
        (updateCluster X weights labels k n_features :: rest.1, rest.2)
      else
        let draw := npRandomRandint n_samples g
        let rest := updateCentroids X weights labels n_samples n_features m (k + 1) draw.2
        (X.getD draw.1 [] :: rest.1, rest.2)

/-- The relative tolerance of np.allclose. -/
noncomputable def rtol : ℝ := 1 / 100000

/-- The absolute tolerance of np.allclose. -/
noncomputable def atol : ℝ := 1 / 100000000

/-- np.allclose on two matrices: every elementwise difference is
within the absolute-plus-relative tolerance. -/
def allclose (A B : List (List ℝ)) : Prop :=
  ∀ p ∈ A.zip B, ∀ q ∈ p.1.zip p.2, |q.1 - q.2| ≤ atol + rtol * |q.2|

noncomputable instance (A B : List (List ℝ)) : Decidable (allclose A B) := by
  unfold allclose; infer_instance

/-- The main loop of the optimizer: assign every point to its nearest
centroid, recompute the centroids, and stop either at the iteration
cap or as soon as the new centroids are all-close to the old ones —
in which case the previous centroids and the previously stored labels
are returned. -/
noncomputable def kmeansLoop (X : List (List ℝ)) (weights : List ℝ)
    (n_clusters n_samples n_features : ℕ) :
    ℕ → List (List ℝ) → List ℕ → RngState → (List (List ℝ) × List ℕ) × RngState
  | 0, centroids, labels, g => ((centroids, labels), g)
  | m + 1, centroids, labels, g =>
      let new_labels := (distance_from_points X centroids).map argmin
      let upd := updateCentroids X weights new_labels n_samples n_features n_clusters 0 g
      if allclose centroids upd.1 then ((centroids, labels), upd.2)
      else kmeansLoop X weights n_clusters n_samples n_features m upd.1 new_labels upd.2

/-- The entry point: seed the global generator when a seed is given,
apply the zero-weight fallback, obtain initial centroids from the
seeder, and run the optimizer loop starting from all-zero labels.
The incoming global generator state g is used when no seed is given,
and the state left behind by the call is returned alongside the
centroids and labels. -/
noncomputable def kmeans (X : List (List ℝ)) (weights : List ℝ) (n_clusters : ℕ)
    (max_iter : ℕ) (alpha : ℝ) (random_state : Option ℕ) (g : RngState) :
    (List (List ℝ) × List ℕ) × RngState :=
  let g0 := match random_state with
    | some s => npRandomSeed s
    | none => g
  let n_samples := X.length
  let n_features := (X.headD []).length
  let weights' := if ∀ w ∈ weights, w = 0 then List.replicate weights.length (1 : ℝ)
                  else weights
  let seeded := kmeans_plusplus X weights' n_clusters alpha g0
  kmeansLoop X weights' n_clusters n_samples n_features max_iter seeded.1
    (List.replicate n_samples 0) seeded.2

/-! Basic facts about the generator model. -/

theorem rngNext_lt (s : RngState) : (rngNext s).1 < 2147483648 := by
  simp only [rngNext]
  exact Nat.mod_lt _ (by norm_num)

theorem npRandomRandint_lt (n : ℕ) (hn : 0 < n) (s : RngState) :
    (npRandomRandint n s).1 < n := by
  simp only [npRandomRandint]
  exact Nat.mod_lt _ hn

theorem npRandomRand_nonneg (s : RngState) : 0 ≤ (npRandomRand s).1 := by
  simp only [npRandomRand]
  positivity

theorem npRandomRand_lt_one (s : RngState) : (npRandomRand s).1 < 1 := by
  simp only [npRandomRand]
  rw [div_lt_one (by norm_num)]
  exact_mod_cast rngNext_lt s

theorem npRandomRandList_length : ∀ (n : ℕ) (s : RngState),
    (npRandomRandList n s).1.length = n
  | 0, _ => rfl
  | n + 1, s => by
      simp only [npRandomRandList, List.length_cons]
      rw [npRandomRandList_length n]

theorem npRandomRandList_mem : ∀ (n : ℕ) (s : RngState),
    ∀ r ∈ (npRandomRandList n s).1, 0 ≤ r ∧ r < 1
  | 0, _ => by simp [npRandomRandList]
  | n + 1, s => by
      simp only [npRandomRandList, List.mem_cons]
      rintro r (rfl | hr)
      · exact ⟨npRandomRand_nonneg s, npRandomRand_lt_one s⟩
      · exact npRandomRandList_mem n _ r hr

/-! Facts about the running-sum and search primitives. -/

theorem cumsum_length : ∀ (l : List ℝ), (cumsum l).length = l.length
  | [] => rfl
  | x :: xs => by
      simp only [cumsum, List.length_cons, List.length_map]
      rw [cumsum_length xs]

theorem sum_mem_cumsum : ∀ (l : List ℝ), l ≠ [] → l.sum ∈ cumsum l
  | [], h => absurd rfl h
  | x :: xs, _ => by
      rcases eq_or_ne xs [] with rfl | hne
      · simp [cumsum]
      · simp only [cumsum, List.sum_cons, List.mem_cons]
        right
        exact List.mem_map_of_mem (fun y => x + y) (sum_mem_cumsum xs hne)

theorem searchsorted_lt_length : ∀ (a : List ℝ) (v : ℝ),
    (∃ x ∈ a, v ≤ x) → searchsorted a v < a.length
  | [], v, h => by simp at h
  | x :: xs, v, h => by
      simp only [searchsorted]
      split
      · simp
      · rename_i hx
        obtain ⟨y, hy, hvy⟩ := h
        rcases List.mem_cons.mp hy with rfl | hy'
        · exact absurd hvy hx
        · have := searchsorted_lt_length xs v ⟨y, hy', hvy⟩
          simpa [Nat.succ_lt_succ_iff] using this

/-! Facts about the arg-min scan. -/

theorem argminAux_spec : ∀ (l : List ℝ) (bi : ℕ) (bv : ℝ) (i : ℕ),
    (argminAux l bi bv i = bi ∧ ∀ x ∈ l, bv ≤ x) ∨
    (∃ j, j < l.length ∧ argminAux l bi bv i = i + j ∧ l.getD j 0 ≤ bv ∧
      ∀ x ∈ l, l.getD j 0 ≤ x)
  | [], bi, bv, i => by simp [argminAux]
  | x :: xs, bi, bv, i => by
      simp only [argminAux]
      split
      · rename_i hx
        rcases argminAux_spec xs i x (i + 1) with ⟨heq, hall⟩ | ⟨j, hj, heq, hle, hall⟩
        · right
          refine ⟨0, by simp, by simpa using heq, ?_, ?_⟩
          · simpa using hx.le
          · intro y hy
            rcases List.mem_cons.mp hy with rfl | hy'
            · simp
            · simpa using hall y hy'
        · right
          refine ⟨j + 1, by simp only [List.length_cons]; omega, by omega, ?_, ?_⟩
          · simpa using hle.trans hx.le
          · intro y hy
            rcases List.mem_cons.mp hy with rfl | hy'
            · simpa using hle
            · simpa using hall y hy'
      · rename_i hx
        push_neg at hx
        rcases argminAux_spec xs bi bv (i + 1) with ⟨heq, hall⟩ | ⟨j, hj, heq, hle, hall⟩
        · left
          refine ⟨heq, ?_⟩
          intro y hy
          rcases List.mem_cons.mp hy with rfl | hy'
          · exact hx
          · exact hall y hy'
        · right
          refine ⟨j + 1, by simp only [List.length_cons]; omega, by omega, by simpa using hle, ?_⟩
          intro y hy
          rcases List.mem_cons.mp hy with rfl | hy'
          · simpa using hle.trans hx
          · simpa using hall y hy'

theorem argmin_lt_length (l : List ℝ) (h : l ≠ []) : argmin l < l.length := by
  obtain ⟨x, xs, rfl⟩ := List.exists_cons_of_ne_nil h
  simp only [argmin]
  rcases argminAux_spec xs 0 x 1 with ⟨heq, _⟩ | ⟨j, hj, heq, _, _⟩
  · simp [heq]
  · rw [heq]
    simp only [List.length_cons]
    omega

theorem argmin_is_min (l : List ℝ) (h : l ≠ []) : ∀ x ∈ l, l.getD (argmin l) 0 ≤ x := by
  obtain ⟨a, xs, rfl⟩ := List.exists_cons_of_ne_nil h
  simp only [argmin]
  rcases argminAux_spec xs 0 a 1 with ⟨heq, hall⟩ | ⟨j, _, heq, hle, hall⟩
  · intro y hy
    rw [heq]
    rcases List.mem_cons.mp hy with rfl | hy'
    · simp
    · simpa using hall y hy'
  · intro y hy
    rw [heq, Nat.add_comm, List.getD_cons_succ]
    rcases List.mem_cons.mp hy with rfl | hy'
    · exact hle
    · exact hall y hy'

/-- C10: for every probability vector of non-negative entries summing
to 1 and every positive draw count, the cumulative-sum categorical
sampler returns only indices below the length of the probability
vector, so indexing the point set by the drawn candidate indices
stays in bounds. -/
theorem numba_rand_choice_in_range (p : List ℝ) (hnn : ∀ x ∈ p, 0 ≤ x)
    (hsum : p.sum = 1) (size : ℕ) (hsize : 0 < size) (s : RngState) :
    ∀ i ∈ (numba_rand_choice size p s).1, i < p.length := by
  intro i hi
  simp only [numba_rand_choice, List.mem_map] at hi
  obtain ⟨r, hr, rfl⟩ := hi
  have hr01 := npRandomRandList_mem size s r hr
  have hne : p ≠ [] := by
    intro h
    rw [h] at hsum
    simp at hsum
  have hmem : p.sum ∈ cumsum p := sum_mem_cumsum p hne
  have hlt : searchsorted (cumsum p) r < (cumsum p).length :=
    searchsorted_lt_length _ _ ⟨p.sum, hmem, by rw [hsum]; linarith [hr01.2]⟩
  rwa [cumsum_length] at hlt

/-- Witness for C10 at a concrete probability vector and draw count. -/
theorem numba_rand_choice_in_range_witness :
    (∀ x ∈ [(1 : ℝ)/2, 1/2], 0 ≤ x) ∧ ([(1 : ℝ)/2, 1/2].sum = 1) ∧ (0 < 2) ∧
    ∀ i ∈ (numba_rand_choice 2 [(1 : ℝ)/2, 1/2] ⟨0⟩).1, i < ([(1 : ℝ)/2, 1/2]).length :=
  ⟨by norm_num, by norm_num, by norm_num,
    numba_rand_choice_in_range [(1 : ℝ)/2, 1/2] (by norm_num) (by norm_num) 2
      (by norm_num) ⟨0⟩⟩

/-- C6: two calls to the entry point with identical point matrix,
weights, cluster count, iteration cap, exponent and the same explicit
seed return identical centroids and identical labels, whatever global
generator state each call starts from. -/
theorem kmeans_seeded_reproducible (X : List (List ℝ)) (weights : List ℝ)
    (n_clusters max_iter : ℕ) (alpha : ℝ) (s : ℕ) (g₁ g₂ : RngState) :
    (kmeans X weights n_clusters max_iter alpha (some s) g₁).1 =
      (kmeans X weights n_clusters max_iter alpha (some s) g₂).1 := rfl

/-- C5: an all-zero weight vector produces exactly the result of an
all-ones weight vector, and the uniform substitution acts at the
optimizer entry as well as at the seeder entry. -/
theorem kmeans_zero_weights_as_ones (X : List (List ℝ)) (n n_clusters max_iter : ℕ)
    (alpha : ℝ) (random_state : Option ℕ) (g g' : RngState) :
    kmeans X (List.replicate n 0) n_clusters max_iter alpha random_state g =
      kmeans X (List.replicate n 1) n_clusters max_iter alpha random_state g ∧
    kmeans_plusplus X (List.replicate n 0) n_clusters alpha g' =
      kmeans_plusplus X (List.replicate n 1) n_clusters alpha g' := by
  have h0 : (if ∀ w ∈ List.replicate n (0 : ℝ), w = 0
      then List.replicate (List.replicate n (0 : ℝ)).length (1 : ℝ)
      else List.replicate n 0) = List.replicate n 1 := by
    rw [if_pos fun w hw => List.eq_of_mem_replicate hw]
    simp
  have h1 : (if ∀ w ∈ List.replicate n (1 : ℝ), w = 0
      then List.replicate (List.replicate n (1 : ℝ)).length (1 : ℝ)
      else List.replicate n 1) = List.replicate n 1 := by
    split <;> simp
  constructor
  · simp only [kmeans]
    rw [h0, h1]
  · simp only [kmeans_plusplus]
    rw [h0, h1]

/-! Generic indexing facts used below. -/

theorem getD_map_of_lt {α β : Type} (f : α → β) (dα : α) (dβ : β) :
    ∀ (l : List α) (i : ℕ), i < l.length → (l.map f).getD i dβ = f (l.getD i dα)
  | [], i, h => by simp at h
  | a :: l, 0, _ => rfl
  | a :: l, i + 1, h => by
      simp only [List.map_cons, List.getD_cons_succ]
      exact getD_map_of_lt f dα dβ l i (by simpa using h)

theorem getD_mem_of_lt {α : Type} (d : α) :
    ∀ (l : List α) (i : ℕ), i < l.length → l.getD i d ∈ l
  | [], i, h => by simp at h
  | a :: l, 0, _ => by simp
  | a :: l, i + 1, h => by
      simp only [List.getD_cons_succ, List.mem_cons]
      exact Or.inr (getD_mem_of_lt d l i (by simpa using h))

theorem numba_rand_choice_length (n : ℕ) (p : List ℝ) (s : RngState) :
    (numba_rand_choice n p s).1.length = n := by
  simp only [numba_rand_choice, List.length_map]
  exact npRandomRandList_length n s

theorem seederCandidates_length (X : List (List ℝ)) (L : ℕ) (da : List ℝ) (g : RngState) :
    (seederCandidates X L da g).length = L := by
  simp only [seederCandidates, List.length_map]
  exact numba_rand_choice_length _ _ _

/-- C8: at each seeding step the sampler is asked for exactly
2 + the floor of the natural logarithm of K candidate indices drawn
from the normalized score distribution, and the candidate adopted as
the next centroid is one of the drawn candidates and minimizes the
acceptance score (the total over all points of the smaller of the
running distance and the distance to the candidate); the seeder
invokes the loop with exactly this trial count. -/
theorem seeder_step_local_trials (X : List (List ℝ)) (weights : List ℝ) (alpha : ℝ)
    (n_clusters m k : ℕ) (C : List (List ℝ)) (dist da : List ℝ) (g : RngState) :
    ((numba_rand_choice (2 + ⌊Real.log (n_clusters : ℝ)⌋₊) (seederScoresNormalized da)
        g).1.length = 2 + ⌊Real.log (n_clusters : ℝ)⌋₊) ∧
    seederBest X (2 + ⌊Real.log (n_clusters : ℝ)⌋₊) dist da g ∈
      seederCandidates X (2 + ⌊Real.log (n_clusters : ℝ)⌋₊) da g ∧
    (∀ c ∈ seederCandidates X (2 + ⌊Real.log (n_clusters : ℝ)⌋₊) da g,
      candidateObjective X dist (seederBest X (2 + ⌊Real.log (n_clusters : ℝ)⌋₊) dist da g) ≤
        candidateObjective X dist c) ∧
    (seederLoop X weights alpha (2 + ⌊Real.log (n_clusters : ℝ)⌋₊) (m + 1) k C dist da g =
      seederLoop X weights alpha (2 + ⌊Real.log (n_clusters : ℝ)⌋₊) m (k + 1)
        (C.set k (seederBest X (2 + ⌊Real.log (n_clusters : ℝ)⌋₊) dist da g))
        (List.zipWith min dist (distance_from_point X
          ((C.set k (seederBest X (2 + ⌊Real.log (n_clusters : ℝ)⌋₊) dist da g)).getD k [])))
        (List.zipWith (fun d w => d ^ alpha * w)
          (List.zipWith min dist (distance_from_point X
            ((C.set k (seederBest X (2 + ⌊Real.log (n_clusters : ℝ)⌋₊) dist da g)).getD k [])))
          weights)
        (numba_rand_choice (2 + ⌊Real.log (n_clusters : ℝ)⌋₊) (seederScoresNormalized da)
          g).2) ∧
    kmeans_plusplus X weights n_clusters alpha g =
      seederLoop X
        (if ∀ w ∈ weights, w = 0 then List.replicate weights.length (1 : ℝ) else weights)
        alpha (2 + ⌊Real.log (n_clusters : ℝ)⌋₊) (n_clusters - 1) 1
        ((List.replicate n_clusters (List.replicate (X.headD []).length (0 : ℝ))).set 0
          (X.getD (npRandomRandint X.length g).1 []))
        (distance_from_point X
          (((List.replicate n_clusters (List.replicate (X.headD []).length (0 : ℝ))).set 0
            (X.getD (npRandomRandint X.length g).1 [])).getD 0 []))
        (List.zipWith (fun d w => d ^ alpha * w)
          (distance_from_point X
            (((List.replicate n_clusters (List.replicate (X.headD []).length (0 : ℝ))).set 0
              (X.getD (npRandomRandint X.length g).1 [])).getD 0 []))
          (if ∀ w ∈ weights, w = 0 then List.replicate weights.length (1 : ℝ) else weights))
        (npRandomRandint X.length g).2 := by
  have hlen : (seederCandidates X (2 + ⌊Real.log (n_clusters : ℝ)⌋₊) da g).length =
      2 + ⌊Real.log (n_clusters : ℝ)⌋₊ := seederCandidates_length _ _ _ _
  have hne : seederCandidates X (2 + ⌊Real.log (n_clusters : ℝ)⌋₊) da g ≠ [] := by
    intro h
    rw [h] at hlen
    simp only [List.length_nil] at hlen
    omega
  have hmaplen : ((seederCandidates X (2 + ⌊Real.log (n_clusters : ℝ)⌋₊) da g).map
      (candidateObjective X dist)).length =
      (seederCandidates X (2 + ⌊Real.log (n_clusters : ℝ)⌋₊) da g).length :=
    List.length_map _ _
  have hargmin : argmin ((seederCandidates X (2 + ⌊Real.log (n_clusters : ℝ)⌋₊) da g).map
      (candidateObjective X dist)) <
      (seederCandidates X (2 + ⌊Real.log (n_clusters : ℝ)⌋₊) da g).length := by
    rw [← hmaplen]
    exact argmin_lt_length _ (by simpa using hne)
  refine ⟨numba_rand_choice_length _ _ _, ?_, ?_, ?_, ?_⟩
  · exact getD_mem_of_lt [] _ _ hargmin
  · intro c hc
    have hmin := argmin_is_min
      ((seederCandidates X (2 + ⌊Real.log (n_clusters : ℝ)⌋₊) da g).map
        (candidateObjective X dist)) (by simpa using hne)
      (candidateObjective X dist c) (List.mem_map_of_mem _ hc)
    rwa [getD_map_of_lt (candidateObjective X dist) [] 0 _ _ hargmin] at hmin
  · rfl
  · rfl

/-! The update phase: length preservation and the empty-cluster
reseed. -/

theorem updateCentroids_length (X : List (List ℝ)) (weights : List ℝ) (labels : List ℕ)
    (ns nf : ℕ) : ∀ (m k : ℕ) (g : RngState),
    (updateCentroids X weights labels ns nf m k g).1.length = m := by
  intro m
  induction m with
  | zero => intro k g; rfl
  | succ m ih =>
      intro k g
      simp only [updateCentroids]
      split
      · simp [ih]
      · simp [ih]

theorem updateCentroids_reseed_aux (X : List (List ℝ)) (weights : List ℝ)
    (labels : List ℕ) (nf : ℕ) (hn : 0 < X.length) :
    ∀ (m k j : ℕ) (g : RngState), j < m → (k + j) ∉ labels →
      ∃ i, i < X.length ∧
        (updateCentroids X weights labels X.length nf m k g).1.getD j [] = X.getD i []
  | 0, k, j, g, hj, _ => absurd hj (by omega)
  | m + 1, k, j, g, hj, hempty => by
      simp only [updateCentroids]
      split
      · rename_i hk
        rcases j with _ | j'
        · exact absurd hk (by simpa using hempty)
        · simp only [List.getD_cons_succ]
          exact updateCentroids_reseed_aux X weights labels nf hn m (k + 1) j' g (by omega)
            (by rw [show k + 1 + j' = k + (j' + 1) by omega]; exact hempty)
      · rcases j with _ | j'
        · simp only [List.getD_cons_zero]
          exact ⟨(npRandomRandint X.length g).1, npRandomRandint_lt _ hn _, rfl⟩
        · simp only [List.getD_cons_succ]
          exact updateCentroids_reseed_aux X weights labels nf hn m (k + 1) j' _ (by omega)
            (by rw [show k + 1 + j' = k + (j' + 1) by omega]; exact hempty)

/-- C7: during an update phase a cluster with zero assigned members
is not an error: the row computed for it is a point drawn from the
full point set (an index below N produced by the uniform integer
draw), and the phase still produces a full one-row-per-cluster
result. -/
theorem update_empty_cluster_reseeds (X : List (List ℝ)) (weights : List ℝ)
    (labels : List ℕ) (n_features m k j : ℕ) (g : RngState)
    (hn : 0 < X.length) (hj : j < m) (hempty : (k + j) ∉ labels) :
    (updateCentroids X weights labels X.length n_features m k g).1.length = m ∧
    ∃ i, i < X.length ∧
      (updateCentroids X weights labels X.length n_features m k g).1.getD j [] =
        X.getD i [] :=
  ⟨updateCentroids_length X weights labels X.length n_features m k g,
    updateCentroids_reseed_aux X weights labels n_features hn m k j g hj hempty⟩

/-- Witness for C7: two coincident points, two clusters, all labels
on cluster 0, so cluster 1 is empty during the update. -/
theorem update_empty_cluster_reseeds_witness :
    0 < ([[(0 : ℝ)], [0]] : List (List ℝ)).length ∧ 1 < 2 ∧ (0 + 1) ∉ ([0, 0] : List ℕ) ∧
    ((updateCentroids [[(0 : ℝ)], [0]] [1, 1] [0, 0]
        ([[(0 : ℝ)], [0]] : List (List ℝ)).length 1 2 0 ⟨0⟩).1.length = 2 ∧
      ∃ i, i < ([[(0 : ℝ)], [0]] : List (List ℝ)).length ∧
        (updateCentroids [[(0 : ℝ)], [0]] [1, 1] [0, 0]
          ([[(0 : ℝ)], [0]] : List (List ℝ)).length 1 2 0 ⟨0⟩).1.getD 1 [] =
          ([[(0 : ℝ)], [0]] : List (List ℝ)).getD i []) :=
  ⟨by norm_num, by norm_num, by decide,
    update_empty_cluster_reseeds [[(0 : ℝ)], [0]] [1, 1] [0, 0] 1 2 0 1 ⟨0⟩
      (by norm_num) (by norm_num) (by decide)⟩

/-! The normalized selection scores form a probability vector. -/

theorem list_sum_pos_of_mem {l : List ℝ} {x : ℝ} (hx : x ∈ l) (hxpos : 0 < x)
    (hnn : ∀ y ∈ l, 0 ≤ y) : 0 < l.sum :=
  lt_of_lt_of_le hxpos (List.single_le_sum hnn x hx)

theorem seederScoresNormalized_spec (da : List ℝ) (hne : da ≠ [])
    (hnn : ∀ x ∈ da, 0 ≤ x) :
    (seederScoresNormalized da).sum = 1 ∧ (∀ x ∈ seederScoresNormalized da, 0 ≤ x) ∧
    (seederScoresNormalized da).length = da.length := by
  have hlen : 0 < da.length := List.length_pos.mpr hne
  by_cases h0 : da.sum = 0
  · have hn : ((da.length : ℝ)) ≠ 0 := by positivity
    have hsumrep : (List.replicate da.length (1 : ℝ)).sum = (da.length : ℝ) := by
      rw [List.sum_replicate, nsmul_eq_mul, mul_one]
    have hclip : min (max ((1 : ℝ) / (da.length : ℝ)) 0) 1 = 1 / (da.length : ℝ) := by
      rw [max_eq_left (by positivity), min_eq_left]
      rw [div_le_one (by positivity)]
      exact_mod_cast hlen
    simp only [seederScoresNormalized, if_pos h0, hsumrep, List.map_replicate, hclip,
      List.sum_replicate, nsmul_eq_mul]
    have hsum1 : (da.length : ℝ) * (1 / (da.length : ℝ)) = 1 := by
      field_simp
    rw [hsum1]
    refine ⟨?_, ?_, by simp⟩
    · simpa using hsum1
    · intro x hx
      rw [List.eq_of_mem_replicate hx]
      positivity
  · have hpos : 0 < da.sum := lt_of_le_of_ne (List.sum_nonneg hnn) (Ne.symm h0)
    simp only [seederScoresNormalized, if_neg h0]
    have hp0nn : ∀ x ∈ da.map (fun x => min (max (x / da.sum) 0) 1), 0 ≤ x := by
      intro x hx
      obtain ⟨y, _, rfl⟩ := List.mem_map.mp hx
      exact le_min (le_max_right _ 0) zero_le_one
    have hex : ∃ x ∈ da, 0 < x := by
      by_contra hno
      push_neg at hno
      exact h0 (List.sum_eq_zero fun x hx => le_antisymm (hno x hx) (hnn x hx))
    obtain ⟨x, hxmem, hxpos⟩ := hex
    have hclippos : 0 < min (max (x / da.sum) 0) 1 := by
      rw [max_eq_left (by positivity)]
      exact lt_min (by positivity) one_pos
    have hp0pos : 0 < (da.map (fun x => min (max (x / da.sum) 0) 1)).sum :=
      list_sum_pos_of_mem (List.mem_map_of_mem _ hxmem) hclippos hp0nn
    refine ⟨?_, ?_, by simp⟩
    · rw [show ∀ (l : List ℝ) (c : ℝ), (l.map fun y => y / c) = l.map fun y => y * c⁻¹ by
        intro l c; simp [div_eq_mul_inv]]
      rw [show (da.map fun x => min (max (x / da.sum) 0) 1) =
        ((da.map fun x => min (max (x / da.sum) 0) 1).map id) by simp]
      rw [List.sum_map_mul_right]
      simp only [List.map_id, List.map_id']
      exact mul_inv_cancel₀ (ne_of_gt hp0pos)
    · intro y hy
      obtain ⟨z, hz, rfl⟩ := List.mem_map.mp hy
      exact div_nonneg (hp0nn z hz) hp0pos.le

/-! Shape and sign facts for the distance engine and elementwise
combinations. -/

theorem distance_from_point_length (X : List (List ℝ)) (p : List ℝ) :
    (distance_from_point X p).length = X.length := List.length_map _ _

theorem distance_from_point_nonneg (X : List (List ℝ)) (p : List ℝ) :
    ∀ d ∈ distance_from_point X p, 0 ≤ d := by
  intro d hd
  obtain ⟨x, _, rfl⟩ := List.mem_map.mp hd
  exact Real.sqrt_nonneg _

theorem zipWith_nonneg (f : ℝ → ℝ → ℝ) (hf : ∀ a b, 0 ≤ a → 0 ≤ b → 0 ≤ f a b) :
    ∀ (l₁ l₂ : List ℝ), (∀ x ∈ l₁, 0 ≤ x) → (∀ x ∈ l₂, 0 ≤ x) →
      ∀ x ∈ List.zipWith f l₁ l₂, 0 ≤ x
  | [], _, _, _ => by simp
  | a :: l₁, [], _, _ => by simp
  | a :: l₁, b :: l₂, h₁, h₂ => by
      simp only [List.zipWith_cons_cons, List.mem_cons]
      rintro x (rfl | hx)
      · exact hf a b (h₁ a (by simp)) (h₂ b (by simp))
      · exact zipWith_nonneg f hf l₁ l₂ (fun y hy => h₁ y (by simp [hy]))
          (fun y hy => h₂ y (by simp [hy])) x hx

theorem rowPow_nonneg (alpha : ℝ) : ∀ (dist w : List ℝ), (∀ x ∈ dist, 0 ≤ x) →
    (∀ x ∈ w, 0 ≤ x) →
    ∀ x ∈ List.zipWith (fun d wi => d ^ alpha * wi) dist w, 0 ≤ x :=
  fun dist w hd hw => zipWith_nonneg _
    (fun a b ha hb => mul_nonneg (Real.rpow_nonneg ha alpha) hb) dist w hd hw

/-! Shape preservation through the seeding loop. -/

theorem seederLoop_shape (X : List (List ℝ)) (weights : List ℝ) (alpha : ℝ) (L : ℕ)
    (hL : 0 < L) (D : ℕ) (hX : ∀ row ∈ X, row.length = D) (hNe : X ≠ [])
    (hw : weights.length = X.length) (hwnn : ∀ x ∈ weights, 0 ≤ x) :
    ∀ (m k : ℕ) (C : List (List ℝ)) (dist da : List ℝ) (g : RngState),
      (∀ row ∈ C, row.length = D) →
      dist.length = X.length → (∀ d ∈ dist, 0 ≤ d) →
      da.length = X.length → (∀ x ∈ da, 0 ≤ x) →
      (seederLoop X weights alpha L m k C dist da g).1.length = C.length ∧
      ∀ row ∈ (seederLoop X weights alpha L m k C dist da g).1, row.length = D := by
  intro m
  induction m with
  | zero =>
      intro k C dist da g hC _ _ _ _
      exact ⟨rfl, hC⟩
  | succ m ih =>
      intro k C dist da g hC hdlen hdnn hdalen hdann
      have hXpos : 0 < X.length := List.length_pos.mpr hNe
      have hdane : da ≠ [] := by
        intro h
        rw [h] at hdalen
        simp at hdalen
        omega
      obtain ⟨hpsum, hpnn, hplen⟩ := seederScoresNormalized_spec da hdane hdann
      have hidx : ∀ i ∈ (numba_rand_choice L (seederScoresNormalized da) g).1,
          i < X.length := by
        intro i hi
        have := numba_rand_choice_in_range (seederScoresNormalized da) hpnn hpsum L hL g i hi
        rwa [hplen, hdalen] at this
      have hcand : ∀ c ∈ (numba_rand_choice L (seederScoresNormalized da) g).1.map
          (fun i => X.getD i []), c.length = D := by
        intro c hc
        obtain ⟨i, hi, rfl⟩ := List.mem_map.mp hc
        exact hX _ (getD_mem_of_lt [] X i (hidx i hi))
      have hcandlen : ((numba_rand_choice L (seederScoresNormalized da) g).1.map
          (fun i => X.getD i [])).length = L := by
        rw [List.length_map]
        exact numba_rand_choice_length _ _ _
      have hcandne : (numba_rand_choice L (seederScoresNormalized da) g).1.map
          (fun i => X.getD i []) ≠ [] := by
        intro h
        rw [h] at hcandlen
        simp only [List.length_nil] at hcandlen
        omega
      have hbestlt : argmin (((numba_rand_choice L (seederScoresNormalized da) g).1.map
          (fun i => X.getD i [])).map (candidateObjective X dist)) <
          ((numba_rand_choice L (seederScoresNormalized da) g).1.map
            (fun i => X.getD i [])).length := by
        have h := argmin_lt_length (((numba_rand_choice L (seederScoresNormalized da) g).1.map
          (fun i => X.getD i [])).map (candidateObjective X dist)) (by simpa using hcandne)
        simpa [List.length_map] using h
      have hbest : (((numba_rand_choice L (seederScoresNormalized da) g).1.map
          (fun i => X.getD i [])).getD (argmin
            (((numba_rand_choice L (seederScoresNormalized da) g).1.map
              (fun i => X.getD i [])).map (candidateObjective X dist))) []).length = D :=
        hcand _ (getD_mem_of_lt [] _ _ hbestlt)
      simp only [seederLoop]
      refine (ih (k + 1) _ _ _ _ ?_ ?_ ?_ ?_ ?_).imp ?_ (fun h => h)
      · intro row hrow
        rcases List.mem_or_eq_of_mem_set hrow with hrow' | rfl
        · exact hC row hrow'
        · exact hbest
      · rw [List.length_zipWith, distance_from_point_length, hdlen, min_self]
      · exact zipWith_nonneg min (fun a b ha hb => le_min ha hb) _ _ hdnn
          (distance_from_point_nonneg X _)
      · rw [List.length_zipWith, List.length_zipWith, distance_from_point_length,
          hdlen, min_self, hw, min_self]
      · exact rowPow_nonneg alpha _ _ (zipWith_nonneg min (fun a b ha hb => le_min ha hb)
          _ _ hdnn (distance_from_point_nonneg X _)) hwnn
      · intro h
        rw [List.length_set] at h
        exact h

theorem kmeans_plusplus_shape (X : List (List ℝ)) (weights : List ℝ) (n_clusters : ℕ)
    (alpha : ℝ) (g : RngState) (D : ℕ) (hX : ∀ row ∈ X, row.length = D) (hNe : X ≠ [])
    (hw : weights.length = X.length) (hwnn : ∀ x ∈ weights, 0 ≤ x) :
    (kmeans_plusplus X weights n_clusters alpha g).1.length = n_clusters ∧
    ∀ row ∈ (kmeans_plusplus X weights n_clusters alpha g).1, row.length = D := by
  have hXpos : 0 < X.length := List.length_pos.mpr hNe
  have hD : (X.headD []).length = D := by
    obtain ⟨r, t, rfl⟩ := List.exists_cons_of_ne_nil hNe
    exact hX r (by simp)
  simp only [kmeans_plusplus]
  set W := if ∀ w ∈ weights, w = 0 then List.replicate weights.length (1 : ℝ) else weights
    with hWdef
  have hWlen : W.length = X.length := by
    rw [hWdef]
    split
    · simp [hw]
    · exact hw
  have hWnn : ∀ x ∈ W, 0 ≤ x := by
    rw [hWdef]
    split
    · intro x hx
      rw [List.eq_of_mem_replicate hx]
      norm_num
    · exact hwnn
  have hfirst : (npRandomRandint X.length g).1 < X.length := npRandomRandint_lt _ hXpos g
  set C0 := (List.replicate n_clusters (List.replicate (X.headD []).length (0 : ℝ))).set 0
    (X.getD (npRandomRandint X.length g).1 []) with hC0def
  have hC0rows : ∀ row ∈ C0, row.length = D := by
    intro row hrow
    rw [hC0def] at hrow
    rcases List.mem_or_eq_of_mem_set hrow with hrow' | rfl
    · rw [List.eq_of_mem_replicate hrow', List.length_replicate]
      exact hD
    · exact hX _ (getD_mem_of_lt [] X _ hfirst)
  have hC0len : C0.length = n_clusters := by
    rw [hC0def, List.length_set, List.length_replicate]
  have hres := seederLoop_shape X W alpha (2 + ⌊Real.log (n_clusters : ℝ)⌋₊)
    (by omega) D hX hNe hWlen hWnn (n_clusters - 1) 1 C0
    (distance_from_point X (C0.getD 0 []))
    (List.zipWith (fun d w => d ^ alpha * w) (distance_from_point X (C0.getD 0 [])) W)
    (npRandomRandint X.length g).2 hC0rows
    (distance_from_point_length X _) (distance_from_point_nonneg X _)
    (by rw [List.length_zipWith, distance_from_point_length, hWlen, min_self])
    (rowPow_nonneg alpha _ _ (distance_from_point_nonneg X _) hWnn)
  rw [hC0len] at hres
  exact hres

/-! Labels produced by the assign phase. -/

theorem assign_labels_spec (X C : List (List ℝ)) (hC : C ≠ []) :
    ((distance_from_points X C).map argmin).length = X.length ∧
    ∀ l ∈ (distance_from_points X C).map argmin, l < C.length := by
  constructor
  · rw [List.length_map, distance_from_points, List.length_map]
  · intro l hl
    obtain ⟨row, hrow, rfl⟩ := List.mem_map.mp hl
    simp only [distance_from_points, List.mem_map] at hrow
    obtain ⟨x, _, rfl⟩ := hrow
    have h := argmin_lt_length (C.map fun p => Real.sqrt (sqDiffSum x p))
      (by simpa using hC)
    simpa [List.length_map] using h

/-! Row lengths through the update phase. -/

theorem foldr_zipWith_add_length : ∀ (l : List (List ℝ)) (acc : List ℝ),
    (∀ v ∈ l, v.length = acc.length) →
    (l.foldr (fun v acc' => List.zipWith (fun a b => a + b) v acc') acc).length =
      acc.length
  | [], _, _ => rfl
  | v :: l, acc, h => by
      simp only [List.foldr_cons, List.length_zipWith]
      rw [foldr_zipWith_add_length l acc (fun u hu => h u (by simp [hu])),
        h v (by simp), min_self]

theorem updateCluster_length (X : List (List ℝ)) (weights : List ℝ) (labels : List ℕ)
    (k D : ℕ) (hX : ∀ row ∈ X, row.length = D) :
    (updateCluster X weights labels k D).length = D := by
  simp only [updateCluster]
  rw [List.length_map]
  rw [foldr_zipWith_add_length _ _ ?_, List.length_replicate]
  intro v hv
  obtain ⟨q, hq, rfl⟩ := List.mem_map.mp hv
  rw [List.length_map, List.length_replicate]
  have hq1 := (List.of_mem_zip hq).1
  obtain ⟨q', hq', heq⟩ := List.mem_map.mp hq1
  rw [← heq]
  exact hX _ ((List.of_mem_zip (List.mem_of_mem_filter hq')).1)

theorem updateCentroids_rows (X : List (List ℝ)) (weights : List ℝ) (labels : List ℕ)
    (D : ℕ) (hX : ∀ row ∈ X, row.length = D) (hXpos : 0 < X.length) :
    ∀ (m k : ℕ) (g : RngState),
      ∀ row ∈ (updateCentroids X weights labels X.length D m k g).1, row.length = D := by
  intro m
  induction m with
  | zero =>
      intro k g row hrow
      simp [updateCentroids] at hrow
  | succ m ih =>
      intro k g row hrow
      by_cases hk : k ∈ labels
      · simp only [updateCentroids, if_pos hk, List.mem_cons] at hrow
        rcases hrow with rfl | hrow'
        · exact updateCluster_length X weights labels k D hX
        · exact ih (k + 1) g row hrow'
      · simp only [updateCentroids, if_neg hk, List.mem_cons] at hrow
        rcases hrow with rfl | hrow'
        · exact hX _ (getD_mem_of_lt [] X _ (npRandomRandint_lt _ hXpos _))
        · exact ih (k + 1) _ row hrow'

/-! The optimizer loop preserves shapes and label bounds. -/

theorem kmeansLoop_shape (X : List (List ℝ)) (weights : List ℝ) (K D : ℕ)
    (hK : 0 < K) (hX : ∀ row ∈ X, row.length = D) (hNe : X ≠ []) :
    ∀ (it : ℕ) (C : List (List ℝ)) (labels : List ℕ) (g : RngState),
      C.length = K → (∀ row ∈ C, row.length = D) →
      labels.length = X.length → (∀ l ∈ labels, l < K) →
      ((kmeansLoop X weights K X.length D it C labels g).1.1.length = K ∧
       ∀ row ∈ (kmeansLoop X weights K X.length D it C labels g).1.1, row.length = D) ∧
      ((kmeansLoop X weights K X.length D it C labels g).1.2.length = X.length ∧
       ∀ l ∈ (kmeansLoop X weights K X.length D it C labels g).1.2, l < K) := by
  have hXpos : 0 < X.length := List.length_pos.mpr hNe
  intro it
  induction it with
  | zero =>
      intro C labels g hClen hCrows hllen hlbd
      exact ⟨⟨hClen, hCrows⟩, hllen, hlbd⟩
  | succ it ih =>
      intro C labels g hClen hCrows hllen hlbd
      have hCne : C ≠ [] := by
        intro h
        rw [h] at hClen
        simp only [List.length_nil] at hClen
        omega
      have hassign := assign_labels_spec X C hCne
      have hupdlen := updateCentroids_length X weights
        ((distance_from_points X C).map argmin) X.length D K 0 g
      have hupdrows := updateCentroids_rows X weights
        ((distance_from_points X C).map argmin) D hX hXpos K 0 g
      simp only [kmeansLoop]
      split
      · exact ⟨⟨hClen, hCrows⟩, hllen, hlbd⟩
      · exact ih _ _ _ hupdlen hupdrows hassign.1
          (fun l hl => hClen ▸ hassign.2 l hl)

/-- Core shape result for the entry point: for a non-empty
rectangular point matrix, non-negative weights of matching length and
at least one requested cluster, the call returns a centroid matrix of
exactly n_clusters rows of width D and labels of length N all below
n_clusters — with no upper bound required on n_clusters. -/
theorem kmeans_shape_core (X : List (List ℝ)) (weights : List ℝ)
    (n_clusters max_iter : ℕ) (alpha : ℝ) (random_state : Option ℕ) (g : RngState)
    (D : ℕ) (hX : ∀ row ∈ X, row.length = D) (hNe : X ≠ [])
    (hw : weights.length = X.length) (hwnn : ∀ x ∈ weights, 0 ≤ x)
    (hK1 : 1 ≤ n_clusters) :
    ((kmeans X weights n_clusters max_iter alpha random_state g).1.1.length = n_clusters ∧
     ∀ row ∈ (kmeans X weights n_clusters max_iter alpha random_state g).1.1,
       row.length = D) ∧
    ((kmeans X weights n_clusters max_iter alpha random_state g).1.2.length = X.length ∧
     ∀ l ∈ (kmeans X weights n_clusters max_iter alpha random_state g).1.2,
       l < n_clusters) := by
  have hD : (X.headD []).length = D := by
    obtain ⟨r, t, hXeq⟩ := List.exists_cons_of_ne_nil hNe
    rw [hXeq]
    exact hX r (by rw [hXeq]; simp)
  rcases random_state with _ | s
  all_goals
    simp only [kmeans]
    rw [hD]
    generalize hG : (if ∀ w ∈ weights, w = 0 then List.replicate weights.length (1 : ℝ)
      else weights) = W
    have hWlen : W.length = X.length := by
      rw [← hG]
      split
      · simp [hw]
      · exact hw
    have hWnn : ∀ x ∈ W, 0 ≤ x := by
      rw [← hG]
      split
      · intro x hx
        rw [List.eq_of_mem_replicate hx]
        norm_num
      · exact hwnn
    refine kmeansLoop_shape X W n_clusters D (by omega) hX hNe max_iter _ _ _ ?_ ?_
      (List.length_replicate _ _) (fun l hl => by rw [List.eq_of_mem_replicate hl]; omega)
    · exact (kmeans_plusplus_shape X W n_clusters alpha _ D hX hNe hWlen hWnn).1
    · exact (kmeans_plusplus_shape X W n_clusters alpha _ D hX hNe hWlen hWnn).2

/-- C4: for every valid input — a non-empty rectangular N-by-D point
matrix, a non-negative weight vector of length N, a cluster count
with 1 ≤ K ≤ N and an iteration cap of at least 1 — the returned
centroid matrix has exactly K rows of exactly D columns and every
returned label is below K. -/
theorem kmeans_output_shape (X : List (List ℝ)) (weights : List ℝ)
    (n_clusters max_iter : ℕ) (alpha : ℝ) (random_state : Option ℕ) (g : RngState)
    (D : ℕ) (hX : ∀ row ∈ X, row.length = D) (hNe : X ≠ [])
    (hw : weights.length = X.length) (hwnn : ∀ x ∈ weights, 0 ≤ x)
    (hK1 : 1 ≤ n_clusters) (hKN : n_clusters ≤ X.length) (hit : 1 ≤ max_iter) :
    ((kmeans X weights n_clusters max_iter alpha random_state g).1.1.length = n_clusters ∧
     ∀ row ∈ (kmeans X weights n_clusters max_iter alpha random_state g).1.1,
       row.length = D) ∧
    ((kmeans X weights n_clusters max_iter alpha random_state g).1.2.length = X.length ∧
     ∀ l ∈ (kmeans X weights n_clusters max_iter alpha random_state g).1.2,
       l < n_clusters) :=
  kmeans_shape_core X weights n_clusters max_iter alpha random_state g D hX hNe hw hwnn hK1

/-- Witness for C4 at a concrete one-point, one-cluster input. -/
theorem kmeans_output_shape_witness :
    (∀ row ∈ ([[(0 : ℝ)]] : List (List ℝ)), row.length = 1) ∧
    (∀ x ∈ ([(1 : ℝ)] : List ℝ), 0 ≤ x) ∧ 1 ≤ 1 ∧
    (((kmeans [[(0 : ℝ)]] [1] 1 1 2 (some 0) ⟨0⟩).1.1.length = 1 ∧
      ∀ row ∈ (kmeans [[(0 : ℝ)]] [1] 1 1 2 (some 0) ⟨0⟩).1.1, row.length = 1) ∧
     ((kmeans [[(0 : ℝ)]] [1] 1 1 2 (some 0) ⟨0⟩).1.2.length =
        ([[(0 : ℝ)]] : List (List ℝ)).length ∧
      ∀ l ∈ (kmeans [[(0 : ℝ)]] [1] 1 1 2 (some 0) ⟨0⟩).1.2, l < 1)) :=
  ⟨by simp, by norm_num, le_refl 1,
    kmeans_output_shape [[(0 : ℝ)]] [1] 1 1 2 (some 0) ⟨0⟩ 1 (by simp) (by simp)
      (by simp) (by norm_num) (by norm_num) (by simp) (by norm_num)⟩

/-- C2 (amended): the entry point performs no input validation; in
particular a call with more clusters than points — an input the
specification declares invalid — still runs the seeder and optimizer
to completion and returns a full centroid matrix with one row per
requested cluster instead of failing. -/
theorem kmeans_no_input_validation (X : List (List ℝ)) (weights : List ℝ)
    (n_clusters max_iter : ℕ) (alpha : ℝ) (random_state : Option ℕ) (g : RngState)
    (D : ℕ) (hX : ∀ row ∈ X, row.length = D) (hNe : X ≠ [])
    (hw : weights.length = X.length) (hwnn : ∀ x ∈ weights, 0 ≤ x)
    (hK1 : 1 ≤ n_clusters) :
    (kmeans X weights n_clusters max_iter alpha random_state g).1.1.length = n_clusters :=
  (kmeans_shape_core X weights n_clusters max_iter alpha random_state g D hX hNe hw hwnn
    hK1).1.1

/-- Witness for the amended C2: one point, two requested clusters
(K greater than N), and the call still returns two centroid rows. -/
theorem kmeans_no_input_validation_witness :
    1 ≤ 2 ∧ (2 > ([[(0 : ℝ)]] : List (List ℝ)).length) ∧
    (kmeans [[(0 : ℝ)]] [1] 2 100 2 (some 0) ⟨0⟩).1.1.length = 2 :=
  ⟨by norm_num, by simp,
    kmeans_no_input_validation [[(0 : ℝ)]] [1] 2 100 2 (some 0) ⟨0⟩ 1 (by simp) (by simp)
      (by simp) (by norm_num) (by norm_num)⟩

/-! Scaling every weight by a non-zero constant leaves every stage of
the computation unchanged. -/

theorem map_mul_sum (c : ℝ) (l : List ℝ) : (l.map fun x => c * x).sum = c * l.sum := by
  induction l with
  | nil => simp
  | cons a l ih => simp [ih, mul_add]

theorem zipWith_pow_mul_scale (alpha c : ℝ) : ∀ (dist w : List ℝ),
    List.zipWith (fun d wi => d ^ alpha * wi) dist (w.map fun x => c * x) =
      (List.zipWith (fun d wi => d ^ alpha * wi) dist w).map fun x => c * x
  | [], _ => by simp
  | d :: dist, [] => by simp
  | d :: dist, wi :: w => by
      simp only [List.map_cons, List.zipWith_cons_cons]
      rw [zipWith_pow_mul_scale alpha c dist w, mul_left_comm]

theorem seederScoresNormalized_scale (c : ℝ) (hc : c ≠ 0) (da : List ℝ) :
    seederScoresNormalized (da.map fun x => c * x) = seederScoresNormalized da := by
  simp only [seederScoresNormalized, map_mul_sum, List.length_map]
  by_cases h0 : da.sum = 0
  · rw [h0, mul_zero]
    simp
  · rw [if_neg h0, if_neg (mul_ne_zero hc h0), if_neg h0, if_neg (mul_ne_zero hc h0)]
    have hinner : (List.map (fun x => min (max (x / (c * da.sum)) 0) 1)
        (da.map fun x => c * x)) = da.map fun x => min (max (x / da.sum) 0) 1 := by
      rw [List.map_map]
      congr 1
      funext x
      simp only [Function.comp_apply]
      rw [mul_div_mul_left x da.sum hc]
    rw [hinner]

theorem filtered_weights_scale (c : ℝ) (k : ℕ) : ∀ (weights : List ℝ) (labels : List ℕ),
    (((weights.map fun x => c * x).zip labels).filter (fun q => q.2 == k)).map Prod.fst =
      ((((weights.zip labels).filter (fun q => q.2 == k)).map Prod.fst).map
        fun x => c * x)
  | [], _ => by simp
  | w :: ws, [] => by simp
  | w :: ws, l :: ls => by
      simp only [List.map_cons, List.zip_cons_cons, List.filter_cons]
      by_cases hl : l == k
      · simp [hl, filtered_weights_scale c k ws ls]
      · simp [hl, filtered_weights_scale c k ws ls]

theorem zipWith_add_scale (c : ℝ) : ∀ (a b : List ℝ),
    List.zipWith (fun x y => x + y) (a.map fun x => c * x) (b.map fun x => c * x) =
      (List.zipWith (fun x y => x + y) a b).map fun x => c * x
  | [], _ => by simp
  | x :: a, [] => by simp
  | x :: a, y :: b => by
      simp only [List.map_cons, List.zipWith_cons_cons]
      rw [zipWith_add_scale c a b, mul_add]

theorem foldr_zipWith_add_scale (c : ℝ) : ∀ (l : List (List ℝ)) (acc : List ℝ),
    ((l.map fun v => v.map fun x => c * x).foldr
      (fun v acc' => List.zipWith (fun a b => a + b) v acc') (acc.map fun x => c * x)) =
    (l.foldr (fun v acc' => List.zipWith (fun a b => a + b) v acc') acc).map
      fun x => c * x
  | [], _ => rfl
  | v :: l, acc => by
      simp only [List.map_cons, List.foldr_cons]
      rw [foldr_zipWith_add_scale c l acc, zipWith_add_scale c]

theorem zip_map_right_scaled (c : ℝ) : ∀ (P : List (List ℝ)) (Wc : List ℝ),
    ((P.zip (Wc.map fun x => c * x)).map fun q => q.1.map fun a => q.2 * a) =
      ((P.zip Wc).map fun q => (q.1.map fun a => q.2 * a).map fun x => c * x)
  | [], _ => by simp
  | p :: P, [] => by simp
  | p :: P, w :: Wc => by
      simp only [List.map_cons, List.zip_cons_cons]
      rw [zip_map_right_scaled c P Wc]
      congr 1
      rw [List.map_map]
      congr 1
      funext a
      simp only [Function.comp_apply]
      ring

theorem updateCluster_scale (c : ℝ) (hc : c ≠ 0) (X : List (List ℝ)) (weights : List ℝ)
    (labels : List ℕ) (k D : ℕ) :
    updateCluster X (weights.map fun x => c * x) labels k D =
      updateCluster X weights labels k D := by
  simp only [updateCluster, filtered_weights_scale, map_mul_sum]
  generalize ((X.zip labels).filter fun q => q.2 == k).map Prod.fst = P
  generalize ((weights.zip labels).filter fun q => q.2 == k).map Prod.fst = Wc
  rw [zip_map_right_scaled c]
  have h1 : ((P.zip Wc).map fun q => (q.1.map fun a => q.2 * a).map fun x => c * x) =
      ((P.zip Wc).map fun q => q.1.map fun a => q.2 * a).map fun v =>
        v.map fun x => c * x := by
    rw [List.map_map]
    rfl
  rw [h1]
  have h2 : (List.replicate D (0 : ℝ)) =
      (List.replicate D (0 : ℝ)).map fun x => c * x := by
    rw [List.map_replicate, mul_zero]
  conv_lhs => rw [h2]
  rw [foldr_zipWith_add_scale c, List.map_map]
  congr 1
  funext a
  simp only [Function.comp_apply]
  rw [mul_div_mul_left a Wc.sum hc]

theorem updateCentroids_scale (c : ℝ) (hc : c ≠ 0) (X : List (List ℝ))
    (weights : List ℝ) (labels : List ℕ) (ns nf : ℕ) :
    ∀ (m k : ℕ) (g : RngState),
      updateCentroids X (weights.map fun x => c * x) labels ns nf m k g =
        updateCentroids X weights labels ns nf m k g := by
  intro m
  induction m with
  | zero => intro k g; rfl
  | succ m ih =>
      intro k g
      by_cases hk : k ∈ labels
      · simp only [updateCentroids, if_pos hk, updateCluster_scale c hc, ih]
      · simp only [updateCentroids, if_neg hk, ih]

theorem kmeansLoop_scale (c : ℝ) (hc : c ≠ 0) (X : List (List ℝ)) (weights : List ℝ)
    (K ns nf : ℕ) :
    ∀ (it : ℕ) (C : List (List ℝ)) (labels : List ℕ) (g : RngState),
      kmeansLoop X (weights.map fun x => c * x) K ns nf it C labels g =
        kmeansLoop X weights K ns nf it C labels g := by
  intro it
  induction it with
  | zero => intro C labels g; rfl
  | succ it ih =>
      intro C labels g
      simp only [kmeansLoop, updateCentroids_scale c hc, ih]

theorem seederLoop_scale (c : ℝ) (hc : c ≠ 0) (X : List (List ℝ)) (weights : List ℝ)
    (alpha : ℝ) (L : ℕ) :
    ∀ (m k : ℕ) (C : List (List ℝ)) (dist da : List ℝ) (g : RngState),
      seederLoop X (weights.map fun x => c * x) alpha L m k C dist
        (da.map fun x => c * x) g = seederLoop X weights alpha L m k C dist da g := by
  intro m
  induction m with
  | zero => intro k C dist da g; rfl
  | succ m ih =>
      intro k C dist da g
      simp only [seederLoop, seederScoresNormalized_scale c hc, zipWith_pow_mul_scale,
        ih]

theorem kmeans_plusplus_scale (c : ℝ) (hc : 0 < c) (X : List (List ℝ))
    (weights : List ℝ) (n_clusters : ℕ) (alpha : ℝ) (g : RngState) :
    kmeans_plusplus X (weights.map fun x => c * x) n_clusters alpha g =
      kmeans_plusplus X weights n_clusters alpha g := by
  have hzero : (∀ w ∈ weights.map fun x => c * x, w = 0) ↔ (∀ w ∈ weights, w = 0) := by
    constructor
    · intro h w hw
      have h2 := h (c * w) (List.mem_map_of_mem _ hw)
      exact (mul_eq_zero.mp h2).resolve_left (ne_of_gt hc)
    · intro h w hw
      obtain ⟨y, hy, rfl⟩ := List.mem_map.mp hw
      rw [h y hy, mul_zero]
  simp only [kmeans_plusplus, List.length_map]
  by_cases hz : ∀ w ∈ weights, w = 0
  · rw [if_pos (hzero.mpr hz), if_pos hz]
  · rw [if_neg (fun h => hz (hzero.mp h)), if_neg hz, zipWith_pow_mul_scale alpha c,
      seederLoop_scale c (ne_of_gt hc)]

/-- C9: scaling every weight by the same positive constant does not
change the returned centroids, labels, or even the generator state
left behind, for any point set, cluster count, iteration cap,
exponent and seed. -/
theorem kmeans_weight_scale_invariant (X : List (List ℝ)) (weights : List ℝ) (c : ℝ)
    (hc : 0 < c) (n_clusters max_iter : ℕ) (alpha : ℝ) (random_state : Option ℕ)
    (g : RngState) :
    kmeans X (weights.map fun w => c * w) n_clusters max_iter alpha random_state g =
      kmeans X weights n_clusters max_iter alpha random_state g := by
  have hzero : (∀ w ∈ weights.map fun x => c * x, w = 0) ↔ (∀ w ∈ weights, w = 0) := by
    constructor
    · intro h w hw
      have h2 := h (c * w) (List.mem_map_of_mem _ hw)
      exact (mul_eq_zero.mp h2).resolve_left (ne_of_gt hc)
    · intro h w hw
      obtain ⟨y, hy, rfl⟩ := List.mem_map.mp hw
      rw [h y hy, mul_zero]
  simp only [kmeans, List.length_map]
  by_cases hz : ∀ w ∈ weights, w = 0
  · rw [if_pos (hzero.mpr hz), if_pos hz]
  · rw [if_neg (fun h => hz (hzero.mp h)), if_neg hz, kmeans_plusplus_scale c hc,
      kmeansLoop_scale c (ne_of_gt hc)]

/-- Witness for C9: doubling a concrete weight vector leaves the
concrete call unchanged. -/
theorem kmeans_weight_scale_invariant_witness :
    (0 : ℝ) < 2 ∧
    kmeans [[(0 : ℝ)], [1]] (([(1 : ℝ), 3]).map fun w => 2 * w) 2 100 2 (some 0) ⟨0⟩ =
      kmeans [[(0 : ℝ)], [1]] [(1 : ℝ), 3] 2 100 2 (some 0) ⟨0⟩ :=
  ⟨by norm_num,
    kmeans_weight_scale_invariant [[(0 : ℝ)], [1]] [(1 : ℝ), 3] 2 (by norm_num) 2 100 2
      (some 0) ⟨0⟩⟩


theorem floor_log_two : ⌊Real.log (2 : ℝ)⌋₊ = 0 := by
  rw [Nat.floor_eq_zero]
  calc Real.log 2 < 0.6931471808 := Real.log_two_lt_d9
  _ < 1 := by norm_num

theorem floor_log_two_cast : ⌊Real.log ((2 : ℕ) : ℝ)⌋₊ = 0 := by
  rw [show ((2 : ℕ) : ℝ) = (2 : ℝ) by norm_num]
  exact floor_log_two

theorem randint_one (s : RngState) : npRandomRandint 1 s = (0, (rngNext s).2) := by
  simp [npRandomRandint, Nat.mod_one]

theorem rand_val_le_one (s : RngState) : ((rngNext s).1 : ℝ) / 2147483648 ≤ 1 := by
  rw [div_le_one (by norm_num)]
  exact_mod_cast (rngNext_lt s).le

theorem searchsorted_head_one (t : List ℝ) (r : ℝ) (hr : r ≤ 1) :
    searchsorted (1 :: t) r = 0 := by
  simp [searchsorted, hr]

theorem choice2_single_one (s : RngState) :
    numba_rand_choice 2 [(1 : ℝ)] s = ([0, 0], (rngNext (rngNext s).2).2) := by
  simp only [numba_rand_choice, npRandomRandList, npRandomRand, cumsum, List.map_nil,
    List.map_cons]
  rw [searchsorted_head_one _ _ (rand_val_le_one _), searchsorted_head_one _ _
    (rand_val_le_one _)]

theorem scores_single_zero : seederScoresNormalized [(0 : ℝ)] = [1] := by
  norm_num [seederScoresNormalized]

theorem mem_zip_self {α : Type} : ∀ (l : List α), ∀ p ∈ l.zip l, p.1 = p.2
  | [], p, hp => by simp at hp
  | a :: l, p, hp => by
      rcases List.mem_cons.mp hp with rfl | hp'
      · rfl
      · exact mem_zip_self l p hp'

theorem allclose_refl (A : List (List ℝ)) : allclose A A := by
  intro p hp q hq
  rw [mem_zip_self A p hp] at hq
  rw [mem_zip_self p.2 q hq]
  simp only [sub_self, abs_zero, atol, rtol]
  positivity

theorem kmeansLoop_converged (X : List (List ℝ)) (weights : List ℝ)
    (K ns nf m : ℕ) (C : List (List ℝ)) (labels : List ℕ) (g : RngState)
    (h : allclose C (updateCentroids X weights ((distance_from_points X C).map argmin)
      ns nf K 0 g).1) :
    kmeansLoop X weights K ns nf (m + 1) C labels g = ((C, labels),
      (updateCentroids X weights ((distance_from_points X C).map argmin) ns nf K 0 g).2) := by
  simp only [kmeansLoop]
  rw [if_pos h]

theorem seeder_eval_c2 (g : RngState) :
    kmeans_plusplus [[(0 : ℝ)]] [-1] 2 2 g =
      ([[0], [0]], (rngNext (rngNext (rngNext g).2).2).2) := by
  simp only [kmeans_plusplus]
  rw [if_neg (by norm_num : ¬ ∀ w ∈ [(-1 : ℝ)], w = 0)]
  norm_num [seederLoop, scores_single_zero, choice2_single_one, randint_one,
    floor_log_two_cast, floor_log_two, candidateObjective, distance_from_point,
    sqDiffSum, argmin, argminAux, Real.sqrt_zero, Real.zero_rpow, List.replicate]

theorem assign_eval_c2 :
    (distance_from_points [[(0 : ℝ)]] [[0], [0]]).map argmin = [0] := by
  norm_num [distance_from_points, sqDiffSum, argmin, argminAux, Real.sqrt_zero]

theorem update_eval_c2 (g : RngState) :
    updateCentroids [[(0 : ℝ)]] [-1] [0] 1 1 2 0 g = ([[0], [0]], (rngNext g).2) := by
  norm_num [updateCentroids, updateCluster, randint_one, List.replicate]

/-- Counterexample for C2: a call with two requested clusters on a
single point (K greater than N) and a negative weight — inputs the
claim says must fail fast — runs to completion and returns a full
two-row centroid matrix with a label vector, with no error raised. -/
theorem kmeans_accepts_invalid_input :
    (kmeans [[(0 : ℝ)]] [-1] 2 100 2 (some 0) ⟨0⟩).1 = ([[0], [0]], [0]) := by
  simp only [kmeans]
  rw [if_neg (by norm_num : ¬ ∀ w ∈ [(-1 : ℝ)], w = 0)]
  rw [show npRandomSeed 0 = ⟨0⟩ by norm_num [npRandomSeed]]
  rw [seeder_eval_c2]
  show (kmeansLoop [[(0 : ℝ)]] [-1] 2 1 1 100 [[0], [0]] (List.replicate 1 0) _).1 = _
  rw [show List.replicate 1 (0 : ℕ) = [0] from rfl]
  rw [kmeansLoop_converged _ _ _ _ _ 99 _ _ _
    (by rw [assign_eval_c2, update_eval_c2]; exact allclose_refl _)]

theorem rngNext_zero : rngNext ⟨0⟩ = (12345, ⟨12345⟩) := by
  norm_num [rngNext]

theorem rngNext_one : rngNext ⟨1⟩ = (1103527590, ⟨1103527590⟩) := by
  norm_num [rngNext]

theorem scores_one_zero : seederScoresNormalized [(1 : ℝ), 0] = [1, 0] := by
  norm_num [seederScoresNormalized]

theorem scores_zero_one : seederScoresNormalized [(0 : ℝ), 1] = [0, 1] := by
  norm_num [seederScoresNormalized]

theorem choice2_one_zero (s : RngState) :
    numba_rand_choice 2 [(1 : ℝ), 0] s = ([0, 0], (rngNext (rngNext s).2).2) := by
  simp only [numba_rand_choice, npRandomRandList, npRandomRand, cumsum, List.map_nil,
    List.map_cons]
  rw [searchsorted_head_one _ _ (rand_val_le_one _), searchsorted_head_one _ _
    (rand_val_le_one _)]

theorem searchsorted_zero_one (t : List ℝ) (r : ℝ) (h0 : ¬ r ≤ 0) (h1 : r ≤ 1) :
    searchsorted (0 :: 1 :: t) r = 1 := by
  simp [searchsorted, h0, h1]

theorem rand_val_pos (s : RngState) (h : (rngNext s).1 ≠ 0) :
    ¬ ((rngNext s).1 : ℝ) / 2147483648 ≤ 0 := by
  rw [not_le]
  have : (0 : ℝ) < ((rngNext s).1 : ℝ) := by
    exact_mod_cast Nat.pos_of_ne_zero h
  positivity

theorem choice2_zero_one_b :
    numba_rand_choice 2 [(0 : ℝ), 1] ⟨1103527590⟩ =
      ([1, 1], (rngNext (rngNext (⟨1103527590⟩ : RngState)).2).2) := by
  simp only [numba_rand_choice, npRandomRandList, npRandomRand, cumsum, List.map_nil,
    List.map_cons]
  norm_num
  constructor
  · rw [searchsorted_zero_one _ _ (rand_val_pos _ (by norm_num [rngNext]))
      (rand_val_le_one _)]
  · rw [searchsorted_zero_one _ _ (rand_val_pos _ (by norm_num [rngNext]))
      (rand_val_le_one _)]

theorem seeder_eval_a :
    kmeans_plusplus [[(0 : ℝ)], [1]] [1, 1] 2 2 ⟨0⟩ =
      ([[1], [0]], (rngNext (rngNext (⟨12345⟩ : RngState)).2).2) := by
  simp only [kmeans_plusplus]
  rw [if_neg (by norm_num : ¬ ∀ w ∈ [(1 : ℝ), 1], w = 0)]
  norm_num [seederLoop, scores_one_zero, choice2_one_zero, npRandomRandint,
    rngNext_zero, floor_log_two_cast, floor_log_two, candidateObjective,
    distance_from_point, sqDiffSum, argmin, argminAux, Real.sqrt_zero, Real.sqrt_one,
    Real.zero_rpow, Real.one_rpow, List.replicate]

theorem assign_eval_a :
    (distance_from_points [[(0 : ℝ)], [1]] [[1], [0]]).map argmin = [1, 0] := by
  norm_num [distance_from_points, sqDiffSum, argmin, argminAux, Real.sqrt_zero,
    Real.sqrt_one]

theorem update_eval_a (g : RngState) :
    updateCentroids [[(0 : ℝ)], [1]] [1, 1] [1, 0] 2 1 2 0 g = ([[1], [0]], g) := by
  norm_num [updateCentroids, updateCluster, List.replicate]

theorem kmeans_eval_a (rs : Option ℕ) (g : RngState)
    (hg : (match rs with | some s => npRandomSeed s | none => g) = ⟨0⟩) :
    kmeans [[(0 : ℝ)], [1]] [1, 1] 2 100 2 rs g =
      (([[1], [0]], [0, 0]), (rngNext (rngNext (⟨12345⟩ : RngState)).2).2) := by
  simp only [kmeans]
  rw [hg]
  rw [if_neg (by norm_num : ¬ ∀ w ∈ [(1 : ℝ), 1], w = 0)]
  rw [seeder_eval_a]
  show (kmeansLoop [[(0 : ℝ)], [1]] [1, 1] 2 2 1 100 [[1], [0]]
    (List.replicate 2 0) ((rngNext (rngNext (⟨12345⟩ : RngState)).2).2)) = _
  rw [show List.replicate 2 (0 : ℕ) = [0, 0] from rfl]
  rw [kmeansLoop_converged _ _ _ _ _ 99 _ _ _
    (by rw [assign_eval_a, update_eval_a]; exact allclose_refl _)]
  rw [assign_eval_a, update_eval_a]

theorem seeder_eval_b :
    kmeans_plusplus [[(0 : ℝ)], [1]] [1, 1] 2 2 ⟨1⟩ =
      ([[0], [1]], (rngNext (rngNext (⟨1103527590⟩ : RngState)).2).2) := by
  simp only [kmeans_plusplus]
  rw [if_neg (by norm_num : ¬ ∀ w ∈ [(1 : ℝ), 1], w = 0)]
  norm_num [seederLoop, scores_zero_one, choice2_zero_one_b, npRandomRandint,
    rngNext_one, floor_log_two_cast, floor_log_two, candidateObjective,
    distance_from_point, sqDiffSum, argmin, argminAux, Real.sqrt_zero, Real.sqrt_one,
    Real.zero_rpow, Real.one_rpow, List.replicate]

theorem assign_eval_b :
    (distance_from_points [[(0 : ℝ)], [1]] [[0], [1]]).map argmin = [0, 1] := by
  norm_num [distance_from_points, sqDiffSum, argmin, argminAux, Real.sqrt_zero,
    Real.sqrt_one]

theorem update_eval_b (g : RngState) :
    updateCentroids [[(0 : ℝ)], [1]] [1, 1] [0, 1] 2 1 2 0 g = ([[0], [1]], g) := by
  norm_num [updateCentroids, updateCluster, List.replicate]

theorem kmeans_eval_b :
    kmeans [[(0 : ℝ)], [1]] [1, 1] 2 100 2 none ⟨1⟩ =
      (([[0], [1]], [0, 0]), (rngNext (rngNext (⟨1103527590⟩ : RngState)).2).2) := by
  simp only [kmeans]
  rw [if_neg (by norm_num : ¬ ∀ w ∈ [(1 : ℝ), 1], w = 0)]
  rw [seeder_eval_b]
  show (kmeansLoop [[(0 : ℝ)], [1]] [1, 1] 2 2 1 100 [[0], [1]]
    (List.replicate 2 0) ((rngNext (rngNext (⟨1103527590⟩ : RngState)).2).2)) = _
  rw [show List.replicate 2 (0 : ℕ) = [0, 0] from rfl]
  rw [kmeansLoop_converged _ _ _ _ _ 99 _ _ _
    (by rw [assign_eval_b, update_eval_b]; exact allclose_refl _)]
  rw [assign_eval_b, update_eval_b]

/-- C1: at a concrete two-point input that converges on the first
iteration, the call returns the labels stored before the Assign phase
(the initial all-zero placeholder), not the labels computed by the
Assign of the converging iteration: the nearest-centroid assignment
for the returned centroids is [1, 0], yet the call returns [0, 0]. -/
theorem kmeans_returns_stale_labels :
    (kmeans [[(0 : ℝ)], [1]] [1, 1] 2 100 2 (some 0) ⟨0⟩).1 = ([[1], [0]], [0, 0]) ∧
    (distance_from_points [[(0 : ℝ)], [1]] [[1], [0]]).map argmin = [1, 0] :=
  ⟨by rw [kmeans_eval_a (some 0) ⟨0⟩ (by norm_num [npRandomSeed])], assign_eval_a⟩

/-- C3 (amended): the call mutates process-wide state — it seeds and
advances the global generator, leaving behind a state different from
the one it started from, both when an explicit seed is supplied and
when none is. -/
theorem kmeans_mutates_global_state :
    (kmeans [[(0 : ℝ)], [1]] [1, 1] 2 100 2 (some 0) ⟨0⟩).2 ≠ ⟨0⟩ ∧
    (kmeans [[(0 : ℝ)], [1]] [1, 1] 2 100 2 none ⟨0⟩).2 ≠ ⟨0⟩ := by
  rw [kmeans_eval_a (some 0) ⟨0⟩ (by norm_num [npRandomSeed]),
    kmeans_eval_a none ⟨0⟩ rfl]
  constructor <;> norm_num [rngNext, RngState.mk.injEq]

/-- Counterexample for C3: with no seed supplied, the result of a
call depends on the global generator state left behind by earlier
calls — the same input clustered from two different incoming global
states yields different centroids. -/
theorem kmeans_depends_on_prior_state :
    (kmeans [[(0 : ℝ)], [1]] [1, 1] 2 100 2 none ⟨0⟩).1 ≠
      (kmeans [[(0 : ℝ)], [1]] [1, 1] 2 100 2 none ⟨1⟩).1 := by
  rw [kmeans_eval_a none ⟨0⟩ rfl, kmeans_eval_b]
  intro h
  rw [Prod.mk.injEq] at h
  simp at h
